import Mathlib

/-!
Shallow embedding of the Gigachad AI Gatekeeper server core.

`KMState`, `get_next_key`, `report_failure`, `get_key_count` embed the
`KeyManager` class of `src/server/key_manager.py`: a credential pool with
a 60-second cooldown ("jail"), a parole pass that frees keys whose
cooldown has expired, and a forced-resurrection path when every key is
jailed.  The Python dict `failed_keys` is modelled as an
insertion-ordered association list (update keeps the position of an
existing key, a fresh key is appended, deletion removes the entry), and
wall-clock times are integers.

The streaming grant detector and the endpoint short-circuit pipeline of
`src/server/main.py` are embedded further below.
-/

def cooldown_seconds : Int := 60

def min_grace_seconds : Int := 10

/-- Lookup in an association list, first match wins (Python dict access). -/
def lookupA : List (String × Int) → String → Option Int
  | [], _ => none
  | p :: ps, k => if p.1 = k then some p.2 else lookupA ps k

/-- Update in an association list: overwrite the first entry with this key in
place, or append a fresh entry (Python dict assignment). -/
def updateA : List (String × Int) → String → Int → List (String × Int)
  | [], k, v => [(k, v)]
  | p :: ps, k, v => if p.1 = k then (k, v) :: ps else p :: updateA ps k v

/-- Delete from an association list: remove the first entry with this key
(Python `del d[k]`). -/
def eraseA : List (String × Int) → String → List (String × Int)
  | [], _ => []
  | p :: ps, k => if p.1 = k then ps else p :: eraseA ps k

/-- State of `KeyManager`: the registered key list and the failure map. -/
structure KMState where
  keys : List String
  failed : List (String × Int)
deriving DecidableEq

/-- The parole pass of `get_next_key`: drop every entry whose ban time is
more than `cooldown_seconds` in the past, keep the rest. -/
def paroleFilter (now : Int) (l : List (String × Int)) : List (String × Int) :=
  l.filter (fun p => decide (now - p.2 ≤ cooldown_seconds))

/-- One comparison step of Python `min` keyed on the ban time: keep the
accumulator on ties, so the first minimal entry wins. -/
def minPair (acc q : String × Int) : String × Int :=
  if q.2 < acc.2 then q else acc

/-- Python `min(d.items(), key=lambda x: x[1])`: the first entry attaining the
minimal ban time, `none` on the empty map. -/
def oldestEntry : List (String × Int) → Option (String × Int)
  | [] => none
  | p :: ps => some (ps.foldl minPair p)

/-- `KeyManager.get_next_key`, with the call time `now` explicit and the
uniform random draw of `random.choice` replaced by an arbitrary seed `r`
(the chosen element is `avail[r % len(avail)]`).  Returns the optional key
together with the mutated state. -/
def get_next_key (r : Nat) (now : Int) (s : KMState) : Option String × KMState :=
  if s.keys = [] then (none, s)
  else
    let failed1 := paroleFilter now s.failed
    let avail := s.keys.filter (fun k => (lookupA failed1 k).isNone)
    if avail = [] then
      match oldestEntry failed1 with
      | none => (none, ⟨s.keys, failed1⟩)
      | some p =>
        if now - p.2 < min_grace_seconds then (none, ⟨s.keys, failed1⟩)
        else (some p.1, ⟨s.keys, eraseA failed1 p.1⟩)
    else (avail.get? (r % avail.length), ⟨s.keys, failed1⟩)

/-- `KeyManager.report_failure`: stamp the key with the current time. -/
def report_failure (now : Int) (key : String) (s : KMState) : KMState :=
  ⟨s.keys, updateA s.failed key now⟩

/-- `KeyManager.get_key_count`. -/
def get_key_count (s : KMState) : Nat := s.keys.length

/-- An operation applied to the key manager, for whole-trace statements:
either a `report_failure` of some key or a `get_next_key` with random
seed `r`. -/
inductive Act where
  | rep (k : String)
  | sel (r : Nat)
deriving DecidableEq

/-- Run one timestamped operation against the state. -/
def stepEv (s : KMState) (e : Act × Int) : KMState :=
  match e.1 with
  | .rep k => report_failure e.2 k s
  | .sel r => (get_next_key r e.2 s).2

/-- Run a timestamped operation sequence against the state. -/
def runEv (s : KMState) (evs : List (Act × Int)) : KMState := evs.foldl stepEv s

/-- The failure map never holds two entries for one key (true of every state
reachable from a Python dict). -/
def NodupKeys (l : List (String × Int)) : Prop := (l.map Prod.fst).Nodup

section AssocLemmas

theorem lookupA_updateA_self (l : List (String × Int)) (k : String) (v : Int) :
    lookupA (updateA l k v) k = some v := by
  induction l with
  | nil => simp [updateA, lookupA]
  | cons p ps ih =>
    by_cases h : p.1 = k
    · simp [updateA, h, lookupA]
    · simp [updateA, h, lookupA, ih]

theorem lookupA_updateA_ne (l : List (String × Int)) (k k' : String) (v : Int)
    (h : k' ≠ k) : lookupA (updateA l k v) k' = lookupA l k' := by
  have hkk : ¬ k = k' := fun hh => h hh.symm
  induction l with
  | nil => simp [updateA, lookupA, hkk]
  | cons p ps ih =>
    by_cases hp : p.1 = k
    · have hp' : ¬ p.1 = k' := by rw [hp]; exact hkk
      simp [updateA, hp, lookupA, hkk, hp']
    · simp only [updateA, hp, if_false, lookupA]
      by_cases hk : p.1 = k'
      · simp [hk]
      · simp [hk, ih]

theorem lookupA_eraseA_ne (l : List (String × Int)) (k k' : String)
    (h : k' ≠ k) : lookupA (eraseA l k) k' = lookupA l k' := by
  induction l with
  | nil => simp [eraseA]
  | cons p ps ih =>
    by_cases hp : p.1 = k
    · have hp' : ¬ p.1 = k' := by rw [hp]; exact fun hh => h hh.symm
      have hkk : ¬ k = k' := fun hh => h hh.symm
      simp [eraseA, hp, lookupA, hp', hkk]
    · simp only [eraseA, hp, if_false, lookupA]
      by_cases hk : p.1 = k'
      · simp [hk]
      · simp [hk, ih]

theorem eraseA_sublist (l : List (String × Int)) (k : String) :
    List.Sublist (eraseA l k) l := by
  induction l with
  | nil => simp [eraseA]
  | cons p ps ih =>
    by_cases hp : p.1 = k
    · simp only [eraseA, hp, if_true]
      exact List.sublist_cons_self p ps
    · simpa [eraseA, hp] using ih.cons₂ p

theorem paroleFilter_sublist (now : Int) (l : List (String × Int)) :
    List.Sublist (paroleFilter now l) l := List.filter_sublist l

theorem mem_of_lookupA (l : List (String × Int)) (k : String) (v : Int)
    (h : lookupA l k = some v) : (k, v) ∈ l := by
  induction l with
  | nil => simp [lookupA] at h
  | cons p ps ih =>
    by_cases hp : p.1 = k
    · simp only [lookupA, hp, if_true] at h
      have : p = (k, v) := by
        cases p with
        | mk a b =>
          simp only at hp
          injection h with h2
          simp [hp, h2.symm]
      simp [this]
    · simp only [lookupA, hp, if_false] at h
      exact List.mem_cons_of_mem _ (ih h)

theorem lookupA_isSome_iff (l : List (String × Int)) (k : String) :
    (lookupA l k).isSome = true ↔ k ∈ l.map Prod.fst := by
  induction l with
  | nil => simp [lookupA]
  | cons p ps ih =>
    by_cases hp : p.1 = k
    · simp [lookupA, hp]
    · simp only [lookupA, hp, if_false, List.map_cons, List.mem_cons]
      rw [ih]
      constructor
      · exact Or.inr
      · rintro (h1 | h2)
        · exact absurd h1.symm hp
        · exact h2

theorem lookupA_eq_none_of_not_mem (l : List (String × Int)) (k : String)
    (h : k ∉ l.map Prod.fst) : lookupA l k = none := by
  cases hl : lookupA l k with
  | none => rfl
  | some v =>
    exact absurd ((lookupA_isSome_iff l k).mp (by rw [hl]; rfl)) h

theorem lookupA_of_mem_nodup (l : List (String × Int)) (k : String) (v : Int)
    (hnd : NodupKeys l) (h : (k, v) ∈ l) : lookupA l k = some v := by
  induction l with
  | nil => simp at h
  | cons p ps ih =>
    rcases List.mem_cons.mp h with h1 | h2
    · simp [lookupA, ← h1]
    · have hk : k ∈ ps.map Prod.fst :=
        List.mem_map.mpr ⟨(k, v), h2, rfl⟩
      have hp : ¬ p.1 = k := by
        intro hh
        have := (List.nodup_cons.mp hnd).1
        rw [hh] at this
        exact this hk
      have hnd' : NodupKeys ps := (List.nodup_cons.mp hnd).2
      simp [lookupA, hp, ih hnd' h2]

theorem nodupKeys_of_sublist {l l' : List (String × Int)}
    (h : List.Sublist l' l) (hnd : NodupKeys l) : NodupKeys l' :=
  List.Nodup.sublist (h.map Prod.fst) hnd

theorem lookupA_eraseA_self (l : List (String × Int)) (k : String)
    (hnd : NodupKeys l) : lookupA (eraseA l k) k = none := by
  induction l with
  | nil => simp [eraseA, lookupA]
  | cons p ps ih =>
    by_cases hp : p.1 = k
    · simp only [eraseA, hp, if_true]
      apply lookupA_eq_none_of_not_mem
      have := (List.nodup_cons.mp hnd).1
      rw [hp] at this
      exact this
    · have hnd' : NodupKeys ps := (List.nodup_cons.mp hnd).2
      simp [eraseA, hp, lookupA, ih hnd']

theorem lookupA_filter_of_nodup (l : List (String × Int)) (k : String) (v : Int)
    (q : String × Int → Bool) (hnd : NodupKeys l)
    (h : lookupA l k = some v) (hq : q (k, v) = true) :
    lookupA (l.filter q) k = some v := by
  induction l with
  | nil => simp [lookupA] at h
  | cons p ps ih =>
    have hnd' : NodupKeys ps := (List.nodup_cons.mp hnd).2
    by_cases hp : p.1 = k
    · simp only [lookupA, hp, if_true] at h
      have hpv : p = (k, v) := by
        cases p with
        | mk a b => injection h with h2; simp only at hp; simp [hp, h2.symm]
      rw [hpv, List.filter_cons, hq]
      simp [lookupA]
    · rw [List.filter_cons]
      cases hqp : q p with
      | true => simp only [if_true, lookupA, hp, if_false]
                simp only [lookupA, hp, if_false] at h
                exact ih hnd' h
      | false => simp only [Bool.false_eq_true, if_false]
                 simp only [lookupA, hp, if_false] at h
                 exact ih hnd' h

theorem lookupA_filter_none (l : List (String × Int)) (k : String)
    (q : String × Int → Bool) (h : lookupA l k = none) :
    lookupA (l.filter q) k = none := by
  apply lookupA_eq_none_of_not_mem
  intro hmem
  have hk : k ∈ l.map Prod.fst := by
    rcases List.mem_map.mp hmem with ⟨p, hp, hpk⟩
    exact List.mem_map.mpr ⟨p, List.mem_of_mem_filter hp, hpk⟩
  have := (lookupA_isSome_iff l k).mpr hk
  rw [h] at this
  exact Bool.noConfusion this

theorem map_fst_updateA (l : List (String × Int)) (k : String) (v : Int) :
    (updateA l k v).map Prod.fst =
      if k ∈ l.map Prod.fst then l.map Prod.fst else l.map Prod.fst ++ [k] := by
  induction l with
  | nil => simp [updateA]
  | cons p ps ih =>
    by_cases hp : p.1 = k
    · simp [updateA, hp]
    · have hne : ¬ k = p.1 := fun hh => hp hh.symm
      simp only [updateA, hp, if_false, List.map_cons, List.mem_cons, ih]
      by_cases hk : k ∈ ps.map Prod.fst
      · simp [hk, hne]
      · simp [hk, hne]

theorem nodupKeys_updateA (l : List (String × Int)) (k : String) (v : Int)
    (hnd : NodupKeys l) : NodupKeys (updateA l k v) := by
  unfold NodupKeys at *
  rw [map_fst_updateA]
  by_cases hk : k ∈ l.map Prod.fst
  · simpa [hk] using hnd
  · simp only [hk, if_false]
    rw [List.nodup_append]
    exact ⟨hnd, List.nodup_singleton k, by simp [List.disjoint_singleton, hk]⟩

theorem foldl_minPair_mem (t : List (String × Int)) :
    ∀ acc, t.foldl minPair acc = acc ∨ t.foldl minPair acc ∈ t := by
  induction t with
  | nil => intro acc; left; rfl
  | cons q t ih =>
    intro acc
    rcases ih (minPair acc q) with h | h
    · rw [List.foldl_cons, h]
      unfold minPair
      split
      · right; exact List.mem_cons_self q t
      · left; rfl
    · right
      rw [List.foldl_cons]
      exact List.mem_cons_of_mem q h

theorem foldl_minPair_le (t : List (String × Int)) :
    ∀ acc, (t.foldl minPair acc).2 ≤ acc.2 ∧
      ∀ q ∈ t, (t.foldl minPair acc).2 ≤ q.2 := by
  induction t with
  | nil => intro acc; exact ⟨le_refl _, by simp⟩
  | cons q t ih =>
    intro acc
    rcases ih (minPair acc q) with ⟨h1, h2⟩
    have hacc : (minPair acc q).2 ≤ acc.2 := by
      unfold minPair; split
      · omega
      · exact le_refl _
    have hq : (minPair acc q).2 ≤ q.2 := by
      unfold minPair; split
      · exact le_refl _
      · omega
    refine ⟨le_trans h1 hacc, ?_⟩
    intro q' hq'
    rcases List.mem_cons.mp hq' with h | h
    · rw [List.foldl_cons, h]
      exact le_trans h1 hq
    · exact h2 q' h

theorem oldestEntry_spec (l : List (String × Int)) (p : String × Int)
    (h : oldestEntry l = some p) : p ∈ l ∧ ∀ q ∈ l, p.2 ≤ q.2 := by
  cases l with
  | nil => simp [oldestEntry] at h
  | cons a t =>
    simp only [oldestEntry, Option.some_inj] at h
    subst h
    constructor
    · rcases foldl_minPair_mem t a with h | h
      · rw [h]; exact List.mem_cons_self a t
      · exact List.mem_cons_of_mem a h
    · intro q hq
      rcases List.mem_cons.mp hq with h | h
      · rw [h]; exact (foldl_minPair_le t a).1
      · exact (foldl_minPair_le t a).2 q h

theorem oldestEntry_eq_none_iff (l : List (String × Int)) :
    oldestEntry l = none ↔ l = [] := by
  cases l <;> simp [oldestEntry]

end AssocLemmas

section GetNextKeyBranches

/-- The candidate list computed inside `get_next_key`: registered keys that
survive neither in the paroled failure map. -/
def availList (now : Int) (s : KMState) : List String :=
  s.keys.filter (fun k => (lookupA (paroleFilter now s.failed) k).isNone)

theorem get_next_key_avail_ne (r : Nat) (now : Int) (s : KMState)
    (hk : ¬ s.keys = []) (ha : ¬ availList now s = []) :
    get_next_key r now s =
      ((availList now s).get? (r % (availList now s).length),
        ⟨s.keys, paroleFilter now s.failed⟩) := by
  unfold get_next_key availList at *
  simp only [hk, if_false, ha]

theorem get_next_key_nofailed (r : Nat) (now : Int) (s : KMState)
    (hk : ¬ s.keys = []) (ha : availList now s = [])
    (hold : oldestEntry (paroleFilter now s.failed) = none) :
    get_next_key r now s = (none, ⟨s.keys, paroleFilter now s.failed⟩) := by
  unfold get_next_key availList at *
  simp only [hk, if_false, ha, hold]
  simp

theorem get_next_key_wait (r : Nat) (now : Int) (s : KMState) (p : String × Int)
    (hk : ¬ s.keys = []) (ha : availList now s = [])
    (hold : oldestEntry (paroleFilter now s.failed) = some p)
    (hg : now - p.2 < min_grace_seconds) :
    get_next_key r now s = (none, ⟨s.keys, paroleFilter now s.failed⟩) := by
  unfold get_next_key availList at *
  simp only [hk, if_false, ha, hold, hg, if_true]

theorem get_next_key_resurrect (r : Nat) (now : Int) (s : KMState) (p : String × Int)
    (hk : ¬ s.keys = []) (ha : availList now s = [])
    (hold : oldestEntry (paroleFilter now s.failed) = some p)
    (hg : ¬ now - p.2 < min_grace_seconds) :
    get_next_key r now s =
      (some p.1, ⟨s.keys, eraseA (paroleFilter now s.failed) p.1⟩) := by
  unfold get_next_key availList at *
  simp only [hk, if_false, ha, hold, hg]
  simp

end GetNextKeyBranches

section StateDiscipline

theorem gnk_keys_nil (r : Nat) (now : Int) (s : KMState) (h : s.keys = []) :
    get_next_key r now s = (none, s) := by
  unfold get_next_key
  simp [h]

theorem gnk_failed_sublist (r : Nat) (now : Int) (s : KMState) :
    List.Sublist (get_next_key r now s).2.failed s.failed := by
  by_cases hk : s.keys = []
  · rw [gnk_keys_nil r now s hk]
  · by_cases ha : availList now s = []
    · cases hold : oldestEntry (paroleFilter now s.failed) with
      | none =>
        rw [get_next_key_nofailed r now s hk ha hold]
        exact paroleFilter_sublist now s.failed
      | some p =>
        by_cases hg : now - p.2 < min_grace_seconds
        · rw [get_next_key_wait r now s p hk ha hold hg]
          exact paroleFilter_sublist now s.failed
        · rw [get_next_key_resurrect r now s p hk ha hold hg]
          exact List.Sublist.trans (eraseA_sublist _ p.1) (paroleFilter_sublist now s.failed)
    · rw [get_next_key_avail_ne r now s hk ha]
      exact paroleFilter_sublist now s.failed

theorem gnk_keys_eq (r : Nat) (now : Int) (s : KMState) :
    (get_next_key r now s).2.keys = s.keys := by
  by_cases hk : s.keys = []
  · rw [gnk_keys_nil r now s hk]
  · by_cases ha : availList now s = []
    · cases hold : oldestEntry (paroleFilter now s.failed) with
      | none => rw [get_next_key_nofailed r now s hk ha hold]
      | some p =>
        by_cases hg : now - p.2 < min_grace_seconds
        · rw [get_next_key_wait r now s p hk ha hold hg]
        · rw [get_next_key_resurrect r now s p hk ha hold hg]
    · rw [get_next_key_avail_ne r now s hk ha]

theorem gnk_nodup (r : Nat) (now : Int) (s : KMState) (hnd : NodupKeys s.failed) :
    NodupKeys (get_next_key r now s).2.failed :=
  nodupKeys_of_sublist (gnk_failed_sublist r now s) hnd

end StateDiscipline

/-- C9: constructed with an empty credential list, every `get_next_key` call
returns `none` immediately and leaves the state (in particular the failure
map) unchanged. -/
theorem getNextKey_empty_pool (r : Nat) (now : Int) (s : KMState)
    (h : s.keys = []) : get_next_key r now s = (none, s) :=
  gnk_keys_nil r now s h

/-- Witness for `getNextKey_empty_pool`: a keyless manager with a stale
failure-map entry is left untouched. -/
theorem getNextKey_empty_pool_witness :
    (KMState.mk [] [("z", 5)]).keys = [] ∧
      get_next_key 0 7 (KMState.mk [] [("z", 5)]) = (none, KMState.mk [] [("z", 5)]) :=
  ⟨rfl, getNextKey_empty_pool 0 7 (KMState.mk [] [("z", 5)]) rfl⟩

/-- C10: `get_next_key` never inserts into the failure map — its resulting
failure map is a sublist of the previous one — while `report_failure` is the
operation that inserts: it stamps exactly the reported key and leaves every
other key's entry unchanged.  Neither operation changes the registered key
list, and `get_key_count` merely reads its length. -/
theorem keyManager_mutation_discipline (r : Nat) (now t : Int) (s : KMState)
    (k : String) :
    List.Sublist (get_next_key r now s).2.failed s.failed ∧
    (get_next_key r now s).2.keys = s.keys ∧
    (report_failure t k s).keys = s.keys ∧
    lookupA (report_failure t k s).failed k = some t ∧
    (∀ k', k' ≠ k → lookupA (report_failure t k s).failed k' = lookupA s.failed k') ∧
    get_key_count (get_next_key r now s).2 = get_key_count s ∧
    get_key_count (report_failure t k s) = get_key_count s :=
  ⟨gnk_failed_sublist r now s, gnk_keys_eq r now s, rfl,
    lookupA_updateA_self s.failed k t,
    fun k' hk' => lookupA_updateA_ne s.failed k k' t hk',
    by unfold get_key_count; rw [gnk_keys_eq r now s], rfl⟩

/-- Witness for `keyManager_mutation_discipline` at a concrete state. -/
theorem keyManager_mutation_discipline_witness :
    List.Sublist (get_next_key 0 100 (KMState.mk ["a", "b"] [("a", 50)])).2.failed
        [("a", 50)] ∧
      lookupA (report_failure 100 "b" (KMState.mk ["a", "b"] [("a", 50)])).failed "b" =
        some 100 :=
  ⟨(keyManager_mutation_discipline 0 100 100 (KMState.mk ["a", "b"] [("a", 50)]) "b").1,
    (keyManager_mutation_discipline 0 100 100 (KMState.mk ["a", "b"] [("a", 50)]) "b").2.2.2.1⟩

/-- C2 counterexample: both registered keys sit in the failure map and the
most recent failure (time 95, the largest ban time) lies 5 seconds before the
call at time 100 — within the 10-second grace window — yet `get_next_key`
returns the oldest key `"a"` instead of `none`, because the grace test is
made against the oldest ban time, not the most recent one. -/
theorem exhaustion_grace_counterexample :
    (lookupA [("a", 50), ("b", 95)] "a").isSome = true ∧
    (lookupA [("a", 50), ("b", 95)] "b").isSome = true ∧
    (∀ q ∈ [(("a" : String), (50 : Int)), ("b", 95)], q.2 ≤ 95) ∧
    (100 : Int) - 95 < min_grace_seconds ∧
    (get_next_key 0 100 (KMState.mk ["a", "b"] [("a", 50), ("b", 95)])).1 =
      some "a" := by
  decide

/-- C2 (amended): if every registered credential is in the failure map and
the oldest failure — equivalently, every failure — occurred less than
`min_grace_seconds` before the call, then `get_next_key` returns `none`. -/
theorem exhaustion_grace (r : Nat) (now : Int) (s : KMState)
    (hall : ∀ k ∈ s.keys, (lookupA s.failed k).isSome = true)
    (hrecent : ∀ q ∈ s.failed, now - q.2 < min_grace_seconds) :
    (get_next_key r now s).1 = none := by
  by_cases hk : s.keys = []
  · rw [gnk_keys_nil r now s hk]
  · have hpar : paroleFilter now s.failed = s.failed := by
      apply List.filter_eq_self.mpr
      intro q hq
      have := hrecent q hq
      unfold min_grace_seconds at this
      unfold cooldown_seconds
      exact decide_eq_true (by omega)
    have ha : availList now s = [] := by
      apply List.filter_eq_nil_iff.mpr
      intro k hkmem
      rw [hpar]
      have := hall k hkmem
      cases hl : lookupA s.failed k with
      | none => rw [hl] at this; exact Bool.noConfusion this
      | some v => simp [hl]
    cases hold : oldestEntry (paroleFilter now s.failed) with
    | none =>
      rw [get_next_key_nofailed r now s hk ha hold]
    | some p =>
      have hp : p ∈ s.failed := by
        have := (oldestEntry_spec _ p hold).1
        rw [hpar] at this
        exact this
      have hg : now - p.2 < min_grace_seconds := hrecent p hp
      rw [get_next_key_wait r now s p hk ha hold hg]

/-- Witness for `exhaustion_grace`: one key, banned 5 seconds ago. -/
theorem exhaustion_grace_witness :
    (get_next_key 0 100 (KMState.mk ["a"] [("a", 95)])).1 = none :=
  exhaustion_grace 0 100 (KMState.mk ["a"] [("a", 95)])
    (by decide) (by decide)

/-- C7: with a nonempty key list, when every registered credential sits in
the failure map surviving the parole pass, the selector works from the entry
with the oldest ban time (minimal among all entries): within the grace window
it returns `none` and keeps the map, otherwise it removes exactly that entry
and returns that credential. -/
theorem forced_resurrection_spec (r : Nat) (now : Int) (s : KMState)
    (p : String × Int) (hk : ¬ s.keys = [])
    (hall : ∀ k ∈ s.keys, (lookupA (paroleFilter now s.failed) k).isSome = true)
    (hold : oldestEntry (paroleFilter now s.failed) = some p) :
    (∀ q ∈ paroleFilter now s.failed, p.2 ≤ q.2) ∧
    (now - p.2 < min_grace_seconds →
      get_next_key r now s = (none, ⟨s.keys, paroleFilter now s.failed⟩)) ∧
    (¬ now - p.2 < min_grace_seconds →
      get_next_key r now s =
        (some p.1, ⟨s.keys, eraseA (paroleFilter now s.failed) p.1⟩)) := by
  have ha : availList now s = [] := by
    apply List.filter_eq_nil_iff.mpr
    intro k hkmem
    have := hall k hkmem
    cases hl : lookupA (paroleFilter now s.failed) k with
    | none => rw [hl] at this; exact Bool.noConfusion this
    | some v => simp [hl]
  exact ⟨(oldestEntry_spec _ p hold).2,
    fun hg => get_next_key_wait r now s p hk ha hold hg,
    fun hg => get_next_key_resurrect r now s p hk ha hold hg⟩

/-- Witness for `forced_resurrection_spec`: two jailed keys, the oldest one
(banned 50 seconds ago, past the grace window) is resurrected and removed. -/
theorem forced_resurrection_spec_witness :
    get_next_key 0 100 (KMState.mk ["a", "b"] [("a", 50), ("b", 95)]) =
      (some "a", KMState.mk ["a", "b"] [("b", 95)]) := by
  have h := forced_resurrection_spec 0 100
    (KMState.mk ["a", "b"] [("a", 50), ("b", 95)]) ("a", 50)
    (by decide) (by decide) (by decide)
  exact h.2.2 (by decide)

section CooldownTrace

/-- The credential `d` carries a failure-map entry stamped no earlier than
`t`. -/
def stampedSince (t : Int) (l : List (String × Int)) (d : String) : Prop :=
  ∃ bt, lookupA l d = some bt ∧ t ≤ bt

/-- Invariant carried along a trace after `report_failure c` at time `t`,
for calls watched up to time `u < t + cooldown_seconds`: either `c` is still
jailed with a stamp at least `t`, or `c` has been resurrected — which forces
every other registered credential to be jailed with a stamp at least `t`,
and forces at least `min_grace_seconds` to have passed since `t`. -/
def CooldownInv (keys : List String) (c : String) (t u : Int)
    (l : List (String × Int)) : Prop :=
  stampedSince t l c ∨
    ((lookupA l c = none ∧ ∀ d ∈ keys, d ≠ c → stampedSince t l d) ∧
      t + min_grace_seconds ≤ u)

theorem stampedSince_parole (t w : Int) (l : List (String × Int)) (d : String)
    (hnd : NodupKeys l) (hw : w < t + cooldown_seconds)
    (h : stampedSince t l d) : stampedSince t (paroleFilter w l) d := by
  obtain ⟨bt, hl, hbt⟩ := h
  refine ⟨bt, ?_, hbt⟩
  apply lookupA_filter_of_nodup l d bt _ hnd hl
  apply decide_eq_true
  unfold cooldown_seconds at hw ⊢
  omega

theorem cooldownInv_parole (keys : List String) (c : String) (t u w : Int)
    (l : List (String × Int)) (hnd : NodupKeys l) (hw : w < t + cooldown_seconds)
    (hinv : CooldownInv keys c t u l) :
    CooldownInv keys c t u (paroleFilter w l) := by
  rcases hinv with h | ⟨⟨hnone, hoth⟩, hten⟩
  · exact Or.inl (stampedSince_parole t w l c hnd hw h)
  · exact Or.inr ⟨⟨lookupA_filter_none l c _ hnone,
      fun d hd hdc => stampedSince_parole t w l d hnd hw (hoth d hd hdc)⟩, hten⟩

theorem cooldownInv_report (keys : List String) (c : String) (t u w : Int)
    (k : String) (l : List (String × Int)) (ht : t ≤ w)
    (hinv : CooldownInv keys c t u l) :
    CooldownInv keys c t u (updateA l k w) := by
  by_cases hkc : k = c
  · left
    exact ⟨w, by rw [hkc] at *; exact lookupA_updateA_self l c w, ht⟩
  · have hck : c ≠ k := fun hh => hkc hh.symm
    rcases hinv with ⟨bt, hl, hbt⟩ | ⟨⟨hnone, hoth⟩, hten⟩
    · exact Or.inl ⟨bt, by rw [lookupA_updateA_ne l k c w hck]; exact hl, hbt⟩
    · refine Or.inr ⟨⟨by rw [lookupA_updateA_ne l k c w hck]; exact hnone, ?_⟩, hten⟩
      intro d hd hdc
      by_cases hdk : d = k
      · exact ⟨w, by rw [hdk]; exact lookupA_updateA_self l k w, ht⟩
      · obtain ⟨bt, hl, hbt⟩ := hoth d hd hdc
        exact ⟨bt, by rw [lookupA_updateA_ne l k d w hdk]; exact hl, hbt⟩

theorem cooldownInv_sel (keys : List String) (c : String) (t u w : Int)
    (r : Nat) (s : KMState) (hkeys : s.keys = keys) (hc : c ∈ keys)
    (hnd : NodupKeys s.failed) (ht : t ≤ w) (hwu : w ≤ u)
    (hu : u < t + cooldown_seconds)
    (hinv : CooldownInv keys c t u s.failed) :
    CooldownInv keys c t u (get_next_key r w s).2.failed := by
  have hw : w < t + cooldown_seconds := lt_of_le_of_lt hwu hu
  have hkne : ¬ s.keys = [] := by
    rw [hkeys]; exact List.ne_nil_of_mem hc
  by_cases ha : availList w s = []
  · cases hold : oldestEntry (paroleFilter w s.failed) with
    | none =>
      rw [get_next_key_nofailed r w s hkne ha hold]
      exact cooldownInv_parole keys c t u w s.failed hnd hw hinv
    | some p =>
      by_cases hg : w - p.2 < min_grace_seconds
      · rw [get_next_key_wait r w s p hkne ha hold hg]
        exact cooldownInv_parole keys c t u w s.failed hnd hw hinv
      · rw [get_next_key_resurrect r w s p hkne ha hold hg]
        have hndp : NodupKeys (paroleFilter w s.failed) :=
          nodupKeys_of_sublist (paroleFilter_sublist w s.failed) hnd
        rcases hinv with ⟨bt, hl, hbt⟩ | ⟨⟨hnone, hoth⟩, hten⟩
        · have hlp : lookupA (paroleFilter w s.failed) c = some bt := by
            apply lookupA_filter_of_nodup s.failed c bt _ hnd hl
            apply decide_eq_true
            unfold cooldown_seconds at hw ⊢
            omega
          by_cases hpc : p.1 = c
          · -- the resurrected key is c itself: move to the second disjunct
            have hpmem := (oldestEntry_spec _ p hold).1
            have hpmin := (oldestEntry_spec _ p hold).2
            have hlp2 : lookupA (paroleFilter w s.failed) p.1 = some p.2 := by
              apply lookupA_of_mem_nodup _ p.1 p.2 hndp
              cases p; exact hpmem
            rw [hpc] at hlp2
            have hpbt : p.2 = bt := by
              rw [hlp2] at hlp
              exact Option.some.inj hlp
            refine Or.inr ⟨⟨?_, ?_⟩, ?_⟩
            · rw [← hpc]
              exact lookupA_eraseA_self _ p.1 hndp
            · intro d hd hdc
              have hds : (lookupA (paroleFilter w s.failed) d).isSome = true := by
                have := List.filter_eq_nil_iff.mp ha d (by rw [← hkeys] at hd; exact hd)
                cases hl' : lookupA (paroleFilter w s.failed) d with
                | none => exfalso; apply this; rw [hl']; rfl
                | some v => rfl
              rw [Option.isSome_iff_exists] at hds
              obtain ⟨btd, hbtd⟩ := hds
              have hdp : btd ≥ p.2 :=
                hpmin (d, btd) (mem_of_lookupA _ d btd hbtd)
              refine ⟨btd, ?_, by omega⟩
              rw [lookupA_eraseA_ne _ p.1 d (by rw [hpc]; exact hdc)]
              exact hbtd
            · -- at least min_grace_seconds have passed since t
              unfold min_grace_seconds at hg ⊢
              omega
          · left
            have hcp : c ≠ p.1 := fun hh => hpc hh.symm
            exact ⟨bt, by rw [lookupA_eraseA_ne _ p.1 c hcp]; exact hlp, hbt⟩
        · -- c is out of the failure map, so it is available: contradiction
          exfalso
          have hcmem : c ∈ s.keys := by rw [hkeys]; exact hc
          have := List.filter_eq_nil_iff.mp ha c hcmem
          apply this
          have hnonep : lookupA (paroleFilter w s.failed) c = none :=
            lookupA_filter_none s.failed c _ hnone
          rw [hnonep]
          rfl
  · rw [get_next_key_avail_ne r w s hkne ha]
    exact cooldownInv_parole keys c t u w s.failed hnd hw hinv

theorem stepEv_keys (s : KMState) (e : Act × Int) : (stepEv s e).keys = s.keys := by
  cases e with
  | mk a w =>
    cases a with
    | rep k => rfl
    | sel r => exact gnk_keys_eq r w s

theorem stepEv_nodup (s : KMState) (e : Act × Int) (hnd : NodupKeys s.failed) :
    NodupKeys (stepEv s e).failed := by
  cases e with
  | mk a w =>
    cases a with
    | rep k => exact nodupKeys_updateA s.failed k w hnd
    | sel r => exact gnk_nodup r w s hnd

theorem cooldownInv_run (keys : List String) (c : String) (t u : Int)
    (mid : List (Act × Int)) :
    ∀ s : KMState, s.keys = keys → c ∈ keys → NodupKeys s.failed →
      (∀ e ∈ mid, t ≤ e.2 ∧ e.2 ≤ u) → u < t + cooldown_seconds →
      CooldownInv keys c t u s.failed →
      CooldownInv keys c t u (runEv s mid).failed ∧
        (runEv s mid).keys = keys ∧ NodupKeys (runEv s mid).failed := by
  induction mid with
  | nil =>
    intro s hkeys hc hnd _ _ hinv
    exact ⟨hinv, hkeys, hnd⟩
  | cons e evs ih =>
    intro s hkeys hc hnd hmid hu hinv
    have he := hmid e (List.mem_cons_self e evs)
    have hinv' : CooldownInv keys c t u (stepEv s e).failed := by
      cases e with
      | mk a w =>
        cases a with
        | rep k => exact cooldownInv_report keys c t u w k s.failed he.1 hinv
        | sel r => exact cooldownInv_sel keys c t u w r s hkeys hc hnd he.1 he.2 hu hinv
    have hkeys' : (stepEv s e).keys = keys := by rw [stepEv_keys]; exact hkeys
    have hnd' := stepEv_nodup s e hnd
    have hrun : runEv s (e :: evs) = runEv (stepEv s e) evs := rfl
    rw [hrun]
    exact ih (stepEv s e) hkeys' hc hnd'
      (fun e' he' => hmid e' (List.mem_cons_of_mem e he')) hu hinv'

theorem cooldownInv_conclude (keys : List String) (c : String) (t u : Int)
    (r : Nat) (s : KMState) (hkeys : s.keys = keys) (hc : c ∈ keys)
    (hnd : NodupKeys s.failed) (htu : t ≤ u) (hu : u < t + cooldown_seconds)
    (hinv : CooldownInv keys c t u s.failed)
    (hret : (get_next_key r u s).1 = some c) :
    min_grace_seconds ≤ u - t ∧
      ∀ d ∈ keys, d ≠ c →
        (lookupA (paroleFilter u s.failed) d).isSome = true := by
  have hkne : ¬ s.keys = [] := by rw [hkeys]; exact List.ne_nil_of_mem hc
  have hndp : NodupKeys (paroleFilter u s.failed) :=
    nodupKeys_of_sublist (paroleFilter_sublist u s.failed) hnd
  by_cases ha : availList u s = []
  · have hallp : ∀ d ∈ keys, (lookupA (paroleFilter u s.failed) d).isSome = true := by
      intro d hd
      have := List.filter_eq_nil_iff.mp ha d (by rw [← hkeys] at hd; exact hd)
      cases hl' : lookupA (paroleFilter u s.failed) d with
      | none => exfalso; apply this; rw [hl']; rfl
      | some v => rfl
    cases hold : oldestEntry (paroleFilter u s.failed) with
    | none =>
      rw [get_next_key_nofailed r u s hkne ha hold] at hret
      exact absurd hret (by simp)
    | some p =>
      by_cases hg : u - p.2 < min_grace_seconds
      · rw [get_next_key_wait r u s p hkne ha hold hg] at hret
        exact absurd hret (by simp)
      · rw [get_next_key_resurrect r u s p hkne ha hold hg] at hret
        have hpc : p.1 = c := Option.some.inj hret
        refine ⟨?_, fun d hd hdc => hallp d hd⟩
        rcases hinv with ⟨bt, hl, hbt⟩ | ⟨⟨hnone, hoth⟩, hten⟩
        · have hlp : lookupA (paroleFilter u s.failed) c = some bt := by
            apply lookupA_filter_of_nodup s.failed c bt _ hnd hl
            apply decide_eq_true
            unfold cooldown_seconds at hu ⊢
            omega
          have hpmem := (oldestEntry_spec _ p hold).1
          have hlp2 : lookupA (paroleFilter u s.failed) p.1 = some p.2 := by
            apply lookupA_of_mem_nodup _ p.1 p.2 hndp
            cases p; exact hpmem
          rw [hpc] at hlp2
          have hpbt : p.2 = bt := by
            rw [hlp2] at hlp
            exact Option.some.inj hlp
          unfold min_grace_seconds at hg ⊢
          omega
        · unfold min_grace_seconds at hten ⊢
          omega
  · rw [get_next_key_avail_ne r u s hkne ha] at hret
    have hcav : c ∈ availList u s := List.get?_mem hret
    have hcpred := List.of_mem_filter hcav
    rcases hinv with ⟨bt, hl, hbt⟩ | ⟨⟨hnone, hoth⟩, hten⟩
    · exfalso
      have hlp : lookupA (paroleFilter u s.failed) c = some bt := by
        apply lookupA_filter_of_nodup s.failed c bt _ hnd hl
        apply decide_eq_true
        unfold cooldown_seconds at hu ⊢
        omega
      rw [hlp] at hcpred
      exact Bool.noConfusion hcpred
    · refine ⟨by unfold min_grace_seconds at hten ⊢; omega, ?_⟩
      intro d hd hdc
      obtain ⟨btd, hld, hbtd⟩ := hoth d hd hdc
      have : lookupA (paroleFilter u s.failed) d = some btd := by
        apply lookupA_filter_of_nodup s.failed d btd _ hnd hld
        apply decide_eq_true
        unfold cooldown_seconds at hu ⊢
        omega
      rw [this]
      rfl

end CooldownTrace

/-- C1: if `report_failure c` runs at time `t` (on any well-formed state)
and, after any further interleaving of `report_failure` and `get_next_key`
operations timed inside `[t, u]`, a `get_next_key` call at time
`u < t + cooldown_seconds` returns `c`, then at that call at least
`min_grace_seconds` have passed since `t` and every other registered
credential is still in the failure map surviving that call's parole pass:
before the cooldown expires, `c` can come back only by forced
resurrection. -/
theorem cooldown_invariant (keys : List String) (c : String) (s0 : KMState)
    (mid : List (Act × Int)) (t u : Int) (r : Nat)
    (hc : c ∈ keys) (hkeys : s0.keys = keys) (hnd : NodupKeys s0.failed)
    (hmid : ∀ e ∈ mid, t ≤ e.2 ∧ e.2 ≤ u) (htu : t ≤ u)
    (hu : u < t + cooldown_seconds)
    (hret : (get_next_key r u (runEv (report_failure t c s0) mid)).1 = some c) :
    min_grace_seconds ≤ u - t ∧
      ∀ d ∈ keys, d ≠ c →
        (lookupA (paroleFilter u (runEv (report_failure t c s0) mid).failed) d).isSome
          = true := by
  have h0 : CooldownInv keys c t u (report_failure t c s0).failed :=
    Or.inl ⟨t, lookupA_updateA_self s0.failed c t, le_refl t⟩
  obtain ⟨hinv, hkeys2, hnd2⟩ :=
    cooldownInv_run keys c t u mid (report_failure t c s0) hkeys hc
      (nodupKeys_updateA s0.failed c t hnd) hmid hu h0
  exact cooldownInv_conclude keys c t u r _ hkeys2 hc hnd2 htu hu hinv hret

/-- Witness for `cooldown_invariant`: keys a and b both fail (at times 0 and
1); a `get_next_key` call at time 12 resurrects and returns a — and indeed
12 - 0 ≥ 10 while b is still jailed. -/
theorem cooldown_invariant_witness :
    min_grace_seconds ≤ (12 : Int) - 0 ∧
      ∀ d ∈ ["a", "b"], d ≠ "a" →
        (lookupA (paroleFilter 12
          (runEv (report_failure 0 "a" (KMState.mk ["a", "b"] []))
            [(Act.rep "b", 1)]).failed) d).isSome = true :=
  cooldown_invariant ["a", "b"] "a" (KMState.mk ["a", "b"] []) [(Act.rep "b", 1)]
    0 12 0 (by decide) rfl (by unfold NodupKeys; decide) (by decide) (by decide)
    (by decide) (by decide)

/-!
Embedding of `src/server/main.py`: Python substring containment, the
streaming grant detector inside `chat_endpoint.generate`, the endpoint's
short-circuit pipeline, and the Hydra retry loop.  Python strings are
modelled as lists of characters.
-/

/-- Python `str.startswith` on character lists. -/
def startsWithL : List Char → List Char → Bool
  | [], _ => true
  | _ :: _, [] => false
  | a :: l1, b :: l2 => a == b && startsWithL l1 l2

/-- Python substring containment `needle in haystack`. -/
def containsSub (needle : List Char) : List Char → Bool
  | [] => startsWithL needle []
  | c :: rest => startsWithL needle (c :: rest) || containsSub needle rest

theorem startsWithL_iff (n : List Char) :
    ∀ l, startsWithL n l = true ↔ ∃ tl, l = n ++ tl := by
  induction n with
  | nil =>
    intro l
    simp [startsWithL]
  | cons a n' ih =>
    intro l
    cases l with
    | nil =>
      simp [startsWithL]
    | cons b l' =>
      simp only [startsWithL, Bool.and_eq_true, beq_iff_eq]
      constructor
      · rintro ⟨hab, hs⟩
        obtain ⟨tl, htl⟩ := (ih l').mp hs
        exact ⟨tl, by rw [hab, htl]; rfl⟩
      · rintro ⟨tl, htl⟩
        rw [List.cons_append] at htl
        injection htl with h1 h2
        exact ⟨h1.symm, (ih l').mpr ⟨tl, h2⟩⟩

theorem containsSub_iff (n : List Char) :
    ∀ l, containsSub n l = true ↔ ∃ l1 l2, l = l1 ++ n ++ l2 := by
  intro l
  induction l with
  | nil =>
    simp only [containsSub, startsWithL_iff]
    constructor
    · rintro ⟨tl, htl⟩
      rcases List.append_eq_nil.mp htl.symm with ⟨h1, h2⟩
      exact ⟨[], [], by simp [h1]⟩
    · rintro ⟨l1, l2, h⟩
      have h' := h.symm
      rw [List.append_assoc] at h'
      rcases List.append_eq_nil.mp h' with ⟨h1, h2⟩
      rcases List.append_eq_nil.mp h2 with ⟨h3, h4⟩
      exact ⟨[], by simp [h3]⟩
  | cons c rest ih =>
    simp only [containsSub, Bool.or_eq_true]
    constructor
    · rintro (hs | hc)
      · obtain ⟨tl, htl⟩ := (startsWithL_iff n _).mp hs
        exact ⟨[], tl, by simp [htl]⟩
      · obtain ⟨l1, l2, h⟩ := ih.mp hc
        exact ⟨c :: l1, l2, by simp [h]⟩
    · rintro ⟨l1, l2, h⟩
      cases l1 with
      | nil =>
        left
        exact (startsWithL_iff n _).mpr ⟨l2, by simpa using h⟩
      | cons d l1' =>
        right
        rw [List.cons_append, List.cons_append] at h
        injection h with h1 h2
        exact ih.mpr ⟨l1', l2, by simpa using h2⟩

/-- The hidden grant marker `SECRET_ACCESS_TOKEN` of `main.py`. -/
def SECRET_ACCESS_TOKEN : List Char := "[[ACCESS_GRANTED]]".data

/-- The caller-visible gate-open fragment yielded on a grant. -/
def GATE_OPEN_SIGNAL : List Char := "\n[[GATE_OPEN]]".data

/-- Python `SECRET_ACCESS_TOKEN in chunk`. -/
def containsTok (c : List Char) : Bool := containsSub SECRET_ACCESS_TOKEN c

/-- The per-chunk streaming loop of `chat_endpoint.generate`: skip falsy
(empty) chunk contents; append each remaining chunk to the accumulator;
forward the chunk to the caller unless the secret token occurs inside it.
Returns the forwarded fragments and the accumulated full response. -/
def streamLoop : List (List Char) → List Char → List (List Char) × List Char
  | [], acc => ([], acc)
  | c :: cs, acc =>
    if c = [] then streamLoop cs acc
    else
      let rest := streamLoop cs (acc ++ c)
      (if containsTok c then rest.1 else c :: rest.1, rest.2)

/-- The post-stream grant check of `chat_endpoint.generate`: if the secret
token occurs in the accumulated full response, yield the gate-open fragment
once (after all forwarded chunks) and mark the turn granted. -/
def generateStream (chunks : List (List Char)) : List (List Char) × Bool :=
  let r := streamLoop chunks []
  if containsTok r.2 then (r.1 ++ [GATE_OPEN_SIGNAL], true) else (r.1, false)

theorem streamLoop_acc (chunks : List (List Char)) :
    ∀ acc, (streamLoop chunks acc).2 = acc ++ chunks.flatten := by
  induction chunks with
  | nil => intro acc; simp [streamLoop]
  | cons c cs ih =>
    intro acc
    by_cases hc : c = []
    · simp [streamLoop, hc, ih]
    · simp [streamLoop, hc, ih (acc ++ c)]

/-- C3 (amended): during one dispatch, the nonempty incoming fragments that
are forwarded to the caller are exactly those in which the sentinel marker
does not occur as a substring — a fragment equal to the marker is
suppressed, but so is any fragment that merely contains the marker together
with other text. -/
theorem fragment_forwarding (chunks : List (List Char)) :
    (streamLoop chunks []).1 =
      chunks.filter (fun c => !(decide (c = [])) && !(containsTok c)) := by
  suffices h : ∀ acc, (streamLoop chunks acc).1 =
      chunks.filter (fun c => !(decide (c = [])) && !(containsTok c)) from h []
  induction chunks with
  | nil => intro acc; simp [streamLoop]
  | cons c cs ih =>
    intro acc
    by_cases hc : c = []
    · simp [streamLoop, hc, ih]
    · by_cases ht : containsTok c
      · simp [streamLoop, hc, ht, ih (acc ++ c)]
      · simp [streamLoop, hc, ht, ih (acc ++ c)]

/-- C3 counterexample: the single fragment `"Clever. [[ACCESS_GRANTED]]"`
is not the marker — it is the marker preceded by other text — yet it is not
forwarded at all: the whole fragment is suppressed. -/
theorem fragment_forwarding_counterexample :
    "Clever. [[ACCESS_GRANTED]]".data ≠ SECRET_ACCESS_TOKEN ∧
    "Clever. [[ACCESS_GRANTED]]".data = "Clever. ".data ++ SECRET_ACCESS_TOKEN ∧
    (streamLoop ["Clever. [[ACCESS_GRANTED]]".data] []).1 = [] := by
  decide

/-- C5: the grant side effect of one streamed attempt fires exactly when the
sentinel marker occurs somewhere in the concatenation of all fragments —
including when it is split across fragment boundaries or occurs several
times — and then the gate-open fragment is appended exactly once after the
forwarded fragments; without an occurrence, nothing is appended and no grant
is marked. -/
theorem at_most_one_grant (chunks : List (List Char)) :
    ((generateStream chunks).2 = true ↔
      ∃ l1 l2, chunks.flatten = l1 ++ SECRET_ACCESS_TOKEN ++ l2) ∧
    (generateStream chunks).1 =
      (streamLoop chunks []).1 ++
        (if (generateStream chunks).2 then [GATE_OPEN_SIGNAL] else []) := by
  have hacc : (streamLoop chunks []).2 = chunks.flatten := by
    rw [streamLoop_acc chunks []]
    exact List.nil_append _
  simp only [generateStream, hacc]
  by_cases h : containsTok chunks.flatten
  · rw [if_pos h]
    constructor
    · simp only [true_iff]
      exact (containsSub_iff SECRET_ACCESS_TOKEN chunks.flatten).mp h
    · simp
  · rw [if_neg h]
    constructor
    · simp only [Bool.false_eq_true, false_iff]
      intro hex
      exact h ((containsSub_iff SECRET_ACCESS_TOKEN chunks.flatten).mpr hex)
    · simp

/-- `MAX_HISTORY_LENGTH` of `main.py`. -/
def MAX_HISTORY_LENGTH : Nat := 50

/-- `MAX_CHAR_PER_MSG` of `main.py`. -/
def MAX_CHAR_PER_MSG : Nat := 1000

/-- `ALLOWED_ORIGINS` of `main.py`. -/
def ALLOWED_ORIGINS : List String :=
  ["https://giga-chad.vercel.app",
   "https://gigachad-ai-gatekeeper.vercel.app",
   "http://localhost:3000",
   "http://127.0.0.1:3000",
   "http://localhost:8000"]

/-- One role-tagged chat message; the content is a character list. -/
structure Msg where
  role : String
  content : List Char
deriving DecidableEq

/-- How one `/chat` request is routed by `chat_endpoint` before any network
call: which short-circuit fires, which validation error is raised, or which
windowed message list reaches the Hydra dispatch loop. -/
inductive ChatOutcome where
  | emergencyGrant
  | originForbidden
  | historyTooLong
  | messageTooLong
  | crisisGrant
  | persistenceGrant
  | dispatch (msgs : List Msg)
deriving DecidableEq

/-- The origin test of `validate_request`: block only a nonempty origin
header absent from the allow list. -/
def originBlocked (origin : Option String) : Bool :=
  match origin with
  | none => false
  | some o => (o != "") && !(ALLOWED_ORIGINS.contains o)

/-- The checks of `validate_request`, in source order: origin, history
length (`MAX_HISTORY_LENGTH + 1` for the system slot), then per-message
character cap. -/
def validationError (origin : Option String) (msgs : List Msg) :
    Option ChatOutcome :=
  if originBlocked origin then some .originForbidden
  else if msgs.length > MAX_HISTORY_LENGTH + 1 then some .historyTooLong
  else if msgs.any (fun m => decide (m.content.length > MAX_CHAR_PER_MSG)) then
    some .messageTooLong
  else none

/-- `last_user_msg` of `chat_endpoint`: the lower-cased content of the last
message when it exists and has role `user`, else the empty string. -/
def lastUserText (msgs : List Msg) : List Char :=
  match msgs.getLast? with
  | none => []
  | some m => if m.role = "user" then m.content.map Char.toLower else []

/-- The crisis-protocol test of `chat_endpoint`. -/
def crisisTriggered (msgs : List Msg) : Bool :=
  containsSub "damage control".data (lastUserText msgs) ||
    containsSub "crisis protocol".data (lastUserText msgs)

/-- The sliding window of `chat_endpoint`: only the last 10 messages reach
the model. -/
def windowMessages (msgs : List Msg) : List Msg :=
  if msgs.length > 10 then msgs.drop (msgs.length - 10) else msgs

/-- The routing pipeline of `chat_endpoint`, in source order: emergency
bypass, `validate_request`, crisis protocol, persistence reward at 40
messages, then dispatch of the windowed conversation. -/
def chatDecision (emergency : Bool) (origin : Option String)
    (msgs : List Msg) : ChatOutcome :=
  if emergency then .emergencyGrant
  else
    match validationError origin msgs with
    | some e => e
    | none =>
      if crisisTriggered msgs then .crisisGrant
      else if msgs.length ≥ 40 then .persistenceGrant
      else .dispatch (windowMessages msgs)

/-- C4 counterexample: with the kill switch on, a 52-message conversation —
above the `MAX_HISTORY_LENGTH + 1` cap — still receives the emergency grant:
the kill-switch check runs before payload validation, so the oversized
payload is never rejected. -/
theorem validation_order_counterexample :
    (List.replicate 52 (Msg.mk "user" ['x'])).length > MAX_HISTORY_LENGTH + 1 ∧
    chatDecision true none (List.replicate 52 (Msg.mk "user" ['x'])) =
      ChatOutcome.emergencyGrant := by
  decide

/-- C4 (amended): payload validation runs after the kill-switch check but
before every other short-circuit rule; with the kill switch disabled and an
acceptable origin, a conversation exceeding the history cap is rejected with
the client error regardless of its content. -/
theorem validation_order (origin : Option String) (msgs : List Msg)
    (hor : originBlocked origin = false)
    (hlen : msgs.length > MAX_HISTORY_LENGTH + 1) :
    chatDecision false origin msgs = ChatOutcome.historyTooLong := by
  simp [chatDecision, validationError, hor, hlen]

/-- Witness for `validation_order`: 52 one-character user messages. -/
theorem validation_order_witness :
    chatDecision false none (List.replicate 52 (Msg.mk "user" ['x'])) =
      ChatOutcome.historyTooLong :=
  validation_order none (List.replicate 52 (Msg.mk "user" ['x'])) rfl (by decide)

/-- C8 counterexample: a 52-message conversation with the kill switch off,
an acceptable origin and no crisis phrase has at least 40 messages, yet the
gate rejects it as an oversized payload instead of granting: payload
validation precedes the persistence threshold. -/
theorem persistence_grant_counterexample :
    40 ≤ (List.replicate 52 (Msg.mk "user" ['x'])).length ∧
    crisisTriggered (List.replicate 52 (Msg.mk "user" ['x'])) = false ∧
    chatDecision false none (List.replicate 52 (Msg.mk "user" ['x'])) =
      ChatOutcome.historyTooLong := by
  decide

/-- C8 (amended): a conversation of between 40 and 51 messages that passes
payload validation (acceptable origin, every message within the character
cap) and is not short-circuited by the kill switch or the crisis phrase
receives the automatic persistence grant, never reaching the dispatcher. -/
theorem persistence_grant (origin : Option String) (msgs : List Msg)
    (hor : originBlocked origin = false)
    (h40 : 40 ≤ msgs.length)
    (hlen : ¬ msgs.length > MAX_HISTORY_LENGTH + 1)
    (hchars : msgs.any (fun m => decide (m.content.length > MAX_CHAR_PER_MSG))
      = false)
    (hcrisis : crisisTriggered msgs = false) :
    chatDecision false origin msgs = ChatOutcome.persistenceGrant := by
  simp [chatDecision, validationError, hor, hlen, hchars, hcrisis, h40]

/-- Witness for `persistence_grant`: exactly 40 short user messages. -/
theorem persistence_grant_witness :
    chatDecision false none (List.replicate 40 (Msg.mk "user" "hi".data)) =
      ChatOutcome.persistenceGrant :=
  persistence_grant none (List.replicate 40 (Msg.mk "user" "hi".data)) rfl
    (by decide) (by decide) (by decide) (by decide)

/-- Classification of a failed streaming attempt; every class is reported to
the key manager the same way in the source. -/
inductive ErrKind where
  | rateLimited
  | unauthorized
  | otherError
deriving DecidableEq

/-- Outcome of one streaming call attempt against the external service. -/
inductive AttemptResult where
  | ok (chunks : List (List Char))
  | err (e : ErrKind)

/-- The Hydra retry loop of `chat_endpoint.generate`.  `fuel` is
`max_attempts - attempts`, the loop variant of the Python `while`; the
oracles give the service's response per attempt (`api`), the random seed of
each selection (`rs`), and the clock at selection and at failure-report time
(`tsel`, `trep`).  Returns the number of `get_next_key` calls made, the
success flag, and the final key-manager state. -/
def hydraGo (api : Nat → String → AttemptResult) (rs : Nat → Nat)
    (tsel trep : Nat → Int) : Nat → Nat → KMState → Nat × Bool × KMState
  | 0, _, s => (0, false, s)
  | fuel + 1, attempts, s =>
    match get_next_key (rs attempts) (tsel attempts) s with
    | (none, s1) => (1, false, s1)
    | (some k, s1) =>
      match api attempts k with
      | .ok _ => (1, true, s1)
      | .err _ =>
        let rest := hydraGo api rs tsel trep fuel (attempts + 1)
          (report_failure (trep attempts) k s1)
        (rest.1 + 1, rest.2)

/-- `max_attempts` of `chat_endpoint.generate`. -/
def max_attempts : Nat := 10

/-- One full dispatch: the loop entered with `attempts = 0`. -/
def hydraDispatch (api : Nat → String → AttemptResult) (rs : Nat → Nat)
    (tsel trep : Nat → Int) (s : KMState) : Nat × Bool × KMState :=
  hydraGo api rs tsel trep max_attempts 0 s

theorem hydraGo_le (api : Nat → String → AttemptResult) (rs : Nat → Nat)
    (tsel trep : Nat → Int) :
    ∀ fuel attempts s, (hydraGo api rs tsel trep fuel attempts s).1 ≤ fuel := by
  intro fuel
  induction fuel with
  | zero => intro attempts s; exact Nat.le_refl 0
  | succ fuel ih =>
    intro attempts s
    cases hg : get_next_key (rs attempts) (tsel attempts) s with
    | mk o s1 =>
      cases o with
      | none =>
        simp only [hydraGo, hg]
        omega
      | some k =>
        cases ha : api attempts k with
        | ok ch =>
          simp only [hydraGo, hg, ha]
          omega
        | err e =>
          simp only [hydraGo, hg, ha]
          have := ih (attempts + 1) (report_failure (trep attempts) k s1)
          omega

/-- C6: whatever the service does, whatever the seeds and the clock, and
however many credentials are registered, one dispatch makes at most
`max_attempts` (10) calls to `get_next_key` — and the loop terminates by
construction, its variant being the remaining fuel. -/
theorem retry_bound (api : Nat → String → AttemptResult) (rs : Nat → Nat)
    (tsel trep : Nat → Int) (s : KMState) :
    (hydraDispatch api rs tsel trep s).1 ≤ max_attempts :=
  hydraGo_le api rs tsel trep max_attempts 0 s
